import Mathlib

/-!
# Verification of the NicksIntervals interval algebra

Shallow embedding of the repository's two interval implementations:

* the boundary-aware `iInterval` (file `iInterval.py`), whose endpoints are
  `iBound` values carrying an inclusion polarity, and
* the legacy float-only `Interval` / `Multi_Interval` (file `Interval.py`).

Python floats are modelled as exact rationals; the extended number line used
by `iBound` adds the two infinities.  `math.isclose` is modelled by its
documented formula `|a - b| <= rel_tol * max |a| |b|` with the default
`rel_tol = 1e-9` (and `abs_tol = 0`).  Constructors and operations that can
raise in Python return `Option` here, with `none` marking the raised
exception.

The classes `iBound` (file `iBound.py`) and the operator module
(`_operators.py`) are not part of the sources at hand; the definitions below
that are marked "Modelled from the spec" reconstruct exactly the behaviour
the specification document ascribes to them (bound ordering by value with the
opening/right side sorting before the closing/left side at equal value, and
the bound-containment tests derived from that ordering).
-/

/-- An extended real-line value: a rational, or one of the two infinities
used by the `iBound` sentinels. -/
inductive Val where
  | ninf : Val
  | fin (q : ℚ) : Val
  | pinf : Val
deriving DecidableEq

/-- Strict order on extended values (`a < b` of Python floats). -/
def Val.blt : Val → Val → Bool
  | .fin a, .fin b => decide (a < b)
  | .ninf, .fin _ => true
  | .ninf, .pinf => true
  | .fin _, .pinf => true
  | _, _ => false

/-- Default relative tolerance of `math.isclose`. -/
def relTol : ℚ := 1 / 1000000000

/-- The `math.isclose` on two finite floats: the documented formula
`|a - b| <= rel_tol * max(|a|, |b|)` with default tolerances (`abs_tol` is 0). -/
def qisclose (a b : ℚ) : Bool := decide (|a - b| ≤ relTol * max |a| |b|)

/-- The `math.isclose` on extended values; with an infinite argument it is true
only for two equal infinities. -/
def Val.isclose : Val → Val → Bool
  | .fin a, .fin b => qisclose a b
  | a, b => decide (a = b)

/-- Inclusion polarity of a bound: `right` is Python's `PART_OF_RIGHT` (the
value belongs to the interval on the right of the bound, i.e. an inclusive
lower bound), `left` is `PART_OF_LEFT`. -/
inductive Side where
  | left : Side
  | right : Side
deriving DecidableEq

/-- Modelled from the spec: the `iBound` endpoint object of `iBound.py`
(missing from the sources) — "an endpoint value plus a polarity flag". -/
structure iBound where
  value : Val
  side : Side
deriving DecidableEq

def iBound.part_of_right (b : iBound) : Bool := decide (b.side = Side.right)

def iBound.part_of_left (b : iBound) : Bool := decide (b.side = Side.left)

/-- Modelled from the spec: the sentinel `iBound_Negative_Infinity`
(value −∞, side RIGHT). -/
def iBound_Negative_Infinity : iBound := ⟨Val.ninf, Side.right⟩

/-- Modelled from the spec: the sentinel `iBound_Positive_Infinity`
(value +∞, side LEFT). -/
def iBound_Positive_Infinity : iBound := ⟨Val.pinf, Side.left⟩

/-- Modelled from the spec: strict `iBound` ordering — "bounds order
primarily by value; at equal value ties are broken by side", the opening
(RIGHT) bound sorting before the closing (LEFT) bound. -/
def iBound.blt (a b : iBound) : Bool :=
  Val.blt a.value b.value ||
    (decide (a.value = b.value) && a.part_of_right && b.part_of_left)

/-- Non-strict `iBound` ordering derived from `iBound.blt`. -/
def iBound.ble (a b : iBound) : Bool := a.blt b || decide (a = b)

/-- The boundary-aware interval: an (unvalidated) pair of bounds.  Validity
is enforced by the constructor `iInterval.mk?` below. -/
structure iInterval where
  lower_bound : iBound
  upper_bound : iBound
deriving DecidableEq

/-- The `iInterval.__init__`: the checks of `iInterval.py` lines 88-113.  `none`
models the raised exception: a degenerate (equal-value) interval is permitted
only with both bounds closed, distinct-but-`isclose` values ("infinitesimal")
are rejected, and reversed bounds are rejected. -/
def iInterval.mk? (lower_bound upper_bound : iBound) : Option iInterval :=
  if lower_bound.value = upper_bound.value then
    if lower_bound.part_of_right && upper_bound.part_of_left then
      some ⟨lower_bound, upper_bound⟩
    else
      none
  else if Val.isclose lower_bound.value upper_bound.value then
    none
  else if Val.blt upper_bound.value lower_bound.value then
    none
  else
    some ⟨lower_bound, upper_bound⟩

/-- The `iInterval.closed` classmethod. -/
def iInterval.closed? (a b : ℚ) : Option iInterval :=
  iInterval.mk? ⟨Val.fin a, Side.right⟩ ⟨Val.fin b, Side.left⟩

/-- The `iInterval.open` classmethod. -/
def iInterval.open? (a b : ℚ) : Option iInterval :=
  iInterval.mk? ⟨Val.fin a, Side.left⟩ ⟨Val.fin b, Side.right⟩

/-- The `iInterval.closed_open` classmethod. -/
def iInterval.closed_open? (a b : ℚ) : Option iInterval :=
  iInterval.mk? ⟨Val.fin a, Side.right⟩ ⟨Val.fin b, Side.right⟩

/-- The `iInterval.open_closed` classmethod. -/
def iInterval.open_closed? (a b : ℚ) : Option iInterval :=
  iInterval.mk? ⟨Val.fin a, Side.left⟩ ⟨Val.fin b, Side.left⟩

/-- The `iInterval.degenerate` classmethod. -/
def iInterval.degenerate? (v : ℚ) : Option iInterval :=
  iInterval.mk? ⟨Val.fin v, Side.right⟩ ⟨Val.fin v, Side.left⟩

/-- Subtraction on extended values (for `iInterval.length`).  In Python
`inf - inf` is NaN; that case cannot arise for a constructible interval and
is mapped to `fin 0` here. -/
def Val.sub : Val → Val → Val
  | .fin a, .fin b => .fin (a - b)
  | .pinf, .pinf => .fin 0
  | .ninf, .ninf => .fin 0
  | .pinf, _ => .pinf
  | .ninf, _ => .ninf
  | .fin _, .pinf => .ninf
  | .fin _, .ninf => .pinf

/-- The `iInterval.length` property: `upper.value - lower.value`. -/
def iInterval.length (i : iInterval) : Val :=
  Val.sub i.upper_bound.value i.lower_bound.value

/-- Modelled from the spec: `_operators.contains_lower_bound_atomic` (module
missing from the sources) — a lower bound `b` of some interval is contained
in `i` when, under the Bound ordering, it lies at or after `i`'s lower bound
and strictly before `i`'s upper bound ("strictly between the endpoints, or
coincident with an inclusive endpoint"). -/
def ops.contains_lower_bound_atomic (i : iInterval) (b : iBound) : Bool :=
  i.lower_bound.ble b && b.blt i.upper_bound

/-- Modelled from the spec: `_operators.contains_upper_bound_atomic` (module
missing from the sources) — an upper bound `b` of some interval is contained
in `i` when, under the Bound ordering, it lies strictly after `i`'s lower
bound and at or before `i`'s upper bound. -/
def ops.contains_upper_bound_atomic (i : iInterval) (b : iBound) : Bool :=
  i.lower_bound.blt b && b.ble i.upper_bound

/-- The `iInterval.touches` (`iInterval.py` lines 231-237): scans the other
collection and reports true on the first member whose upper end is `isclose`
to our lower end with equal `part_of_right` flags, or whose lower end is
`isclose` to our upper end with equal `part_of_left` flags. -/
def iInterval.touches (s : iInterval) : List iInterval → Bool
  | [] => false
  | oi :: rest =>
    if Val.isclose s.lower_bound.value oi.upper_bound.value &&
        (s.lower_bound.part_of_right == oi.upper_bound.part_of_right) then
      true
    else if Val.isclose s.upper_bound.value oi.lower_bound.value &&
        (s.upper_bound.part_of_left == oi.lower_bound.part_of_left) then
      true
    else
      iInterval.touches s rest

/-- One pairwise step of `iInterval.subtract` (`iInterval.py` lines 254-303):
removes `o` from `s`, producing the list of surviving pieces; `none` models
an exception raised while constructing a piece. -/
def iInterval.subtract1 (s o : iInterval) : Option (List iInterval) :=
  let ocsl := ops.contains_lower_bound_atomic o s.lower_bound
  let ocsu := ops.contains_upper_bound_atomic o s.upper_bound
  if ocsl && ocsu then
    some []
  else
    let scol := ops.contains_lower_bound_atomic s o.lower_bound
    let scou := ops.contains_upper_bound_atomic s o.upper_bound
    if scol && scou then
      Option.bind
        (if s.lower_bound = o.lower_bound then some []
         else (iInterval.mk? s.lower_bound o.lower_bound).map (fun i => [i]))
        (fun ps =>
          Option.map (fun qs => ps ++ qs)
            (if o.upper_bound = s.upper_bound then some []
             else (iInterval.mk? o.upper_bound s.upper_bound).map (fun i => [i])))
    else if ocsl then
      (if o.upper_bound = s.upper_bound then some []
       else (iInterval.mk? o.upper_bound s.upper_bound).map (fun i => [i]))
    else if ocsu then
      (if s.lower_bound = o.lower_bound then some []
       else (iInterval.mk? s.lower_bound o.lower_bound).map (fun i => [i]))
    else
      some [s]

/-- The inner loop of `iInterval.subtract`: subtracts `o` from every interval
of the running result, concatenating the pieces in order. -/
def iInterval.subtractMany : List iInterval → iInterval → Option (List iInterval)
  | [], _ => some []
  | s :: rest, o =>
    Option.bind (iInterval.subtract1 s o) (fun a =>
      Option.map (fun b => a ++ b) (iInterval.subtractMany rest o))

/-- The outer loop of `iInterval.subtract`: folds the members of the other
collection over the running result. -/
def iInterval.subtractFold : List iInterval → List iInterval → Option (List iInterval)
  | result, [] => some result
  | result, o :: os =>
    Option.bind (iInterval.subtractMany result o) (fun r => iInterval.subtractFold r os)

/-- The `iInterval.subtract` (`iInterval.py` lines 249-306). -/
def iInterval.subtract (s : iInterval) (other_intervals : List iInterval) :
    Option (List iInterval) :=
  iInterval.subtractFold [s] other_intervals

/-- The `iInterval.hull` (`iInterval.py` lines 308-316), exactly as written: the
running lower bound is lowered by a smaller member lower bound, but the
running upper bound is raised (to the member's upper bound) only when the
member's LOWER bound exceeds it. -/
def iInterval.hull (s : iInterval) (other : List iInterval) : Option iInterval :=
  let res := other.foldl
    (fun (acc : iBound × iBound) oi =>
      let lb := if iBound.blt oi.lower_bound acc.1 then oi.lower_bound else acc.1
      let ub := if iBound.blt acc.2 oi.lower_bound then oi.upper_bound else acc.2
      (lb, ub))
    (s.lower_bound, s.upper_bound)
  iInterval.mk? res.1 res.2

/-- Modelled from the spec: the hull as the specification words it — "lower =
min over all lower bounds, upper = max over all upper bounds, by the Bound
ordering" (for comparison with the implemented `iInterval.hull`). -/
def iInterval.hullSpec (s : iInterval) (other : List iInterval) : iBound × iBound :=
  (other.foldl
      (fun acc oi => if iBound.blt oi.lower_bound acc then oi.lower_bound else acc)
      s.lower_bound,
   other.foldl
      (fun acc oi => if iBound.blt acc oi.upper_bound then oi.upper_bound else acc)
      s.upper_bound)

/-! ## The legacy float-only `Interval` / `Multi_Interval` (file `Interval.py`)

The `Legacy` namespace stands for the legacy module; inside it the class
names `Interval` and `Multi_Interval` are kept verbatim. -/

namespace Legacy

/-- The legacy interval: a mutable-in-Python pair of floats, embedded as a
value.  The Python attribute `end` is a Lean keyword, hence the guillemets. -/
structure Interval where
  start : ℚ
  «end» : ℚ
deriving DecidableEq

/-- The `Interval.is_valid` property: `start <= end`. -/
def Interval.is_valid (i : Interval) : Bool := decide (i.start ≤ i.«end»)

/-- The `Interval.is_infinitesimal` property: `isclose(start, end)`. -/
def Interval.is_infinitesimal (i : Interval) : Bool := qisclose i.start i.«end»

/-- The `Interval.length` property. -/
def Interval.length (i : Interval) : ℚ := i.«end» - i.start

/-- The `Interval.intersect` restricted to a single `Interval` operand
(`Interval.py` lines 133-163).  Python's implicit fall-through return of
`None` at the end is unreachable (the `self.start > other.end` case already
returned). -/
def Interval.intersect (s o : Interval) : Option Interval :=
  if s.«end» < o.start then none
  else if s.start > o.«end» then none
  else if s.start ≤ o.start then
    (if s.«end» < o.«end» then some ⟨o.start, s.«end»⟩ else some ⟨o.start, o.«end»⟩)
  else if s.start ≤ o.«end» then
    (if s.«end» < o.«end» then some ⟨s.start, s.«end»⟩ else some ⟨s.start, o.«end»⟩)
  else none

/-- The `Interval.intersects`: `intersect(other) is not None`. -/
def Interval.intersects (s o : Interval) : Bool := (s.intersect o).isSome

/-- The `Interval.hull`: `(min(starts), max(ends))`. -/
def Interval.hull (s o : Interval) : Interval :=
  ⟨min s.start o.start, max s.«end» o.«end»⟩

/-- The `Interval.touches` (`Interval.py` lines 174-183). -/
def Interval.touches (s o : Interval) : Bool :=
  (decide (s.start ≥ o.«end») && qisclose s.start o.«end») ||
    (decide (s.«end» ≤ o.start) && qisclose s.«end» o.start)

/-- The `Interval.subtract` restricted to a single `Interval` operand
(`Interval.py` lines 194-226), flattened to the list of pieces as
`Multi_Interval.subtract` consumes them: Python's `None` result (member
wholly consumed) is `[]`, a plain `Interval` is a singleton, a
`Multi_Interval` contributes both pieces.  The trailing `raise ValueError`
branch is unreachable (its guard `self.start < other.end` follows from the
falsity of the second guard `self.start >= other.end`). -/
def Interval.subtractPieces (s o : Interval) : List Interval :=
  if s.«end» ≤ o.start then [s]
  else if s.start ≥ o.«end» then [s]
  else if s.start ≤ o.start then
    (if s.«end» < o.«end» then [⟨s.start, o.start⟩]
     else [⟨s.start, o.start⟩, ⟨o.«end», s.«end»⟩])
  else if s.start < o.«end» then
    (if s.«end» < o.«end» then [] else [⟨o.«end», s.«end»⟩])
  else []

/-- The `Multi_Interval.subtract` (`Interval.py` lines 283-299): rewrites every
member, flattening multi-piece results; members whose `intersect` with the
subtracted interval is falsy (`None`) are kept verbatim. -/
def Multi_Interval.subtract : List Interval → Interval → List Interval
  | [], _ => []
  | mem :: rest, x =>
    (if (mem.intersect x).isSome then mem.subtractPieces x else [mem]) ++
      Multi_Interval.subtract rest x

/-- The `Multi_Interval.add_hard` (`Interval.py` lines 315-324): subtract the new
interval from every member, then append (a copy of) it. -/
def Multi_Interval.add_hard (l : List Interval) (x : Interval) : List Interval :=
  Multi_Interval.subtract l x ++ [x]

/-- The merge loop of `Multi_Interval.add_merge` (`Interval.py` lines
358-368): find the first member that intersects or touches the ORIGINAL
interval being added (the Python code tests `original_interval_to_add`, not
the growing candidate), fold it into the candidate via `hull`, remove it,
and restart.  The loop removes one member per iteration, so fuel equal to
the member count makes the fuel bound unreachable. -/
def Multi_Interval.add_merge_loop :
    Nat → Interval → Interval → List Interval → Interval × List Interval
  | 0, _, cand, l => (cand, l)
  | fuel + 1, orig, cand, l =>
    match l.find? (fun a => a.intersects orig || a.touches orig) with
    | some a => Multi_Interval.add_merge_loop fuel orig (cand.hull a) (l.erase a)
    | none => (cand, l)

/-- The `Multi_Interval.add_merge` (`Interval.py` lines 351-370). -/
def Multi_Interval.add_merge (l : List Interval) (x : Interval) : List Interval :=
  let res := Multi_Interval.add_merge_loop l.length x x l
  res.2 ++ [res.1]

/-- The pair scan of `Multi_Interval.merge_touching_and_intersecting`:
`itertools.combinations` order — the first pair `(a, b)`, `a` before `b`,
with `a.intersects(b) or a.touches(b)`. -/
def Multi_Interval.findMergePair : List Interval → Option (Interval × Interval)
  | [] => none
  | a :: rest =>
    match rest.find? (fun b => a.intersects b || a.touches b) with
    | some b => some (a, b)
    | none => Multi_Interval.findMergePair rest

/-- The restart loop of `Multi_Interval.merge_touching_and_intersecting`
(`Interval.py` lines 372-387): merge the found pair via `hull` (removing
both members, appending the hull) and restart.  Each merge shrinks the list
by one, so fuel equal to the member count makes the fuel bound unreachable. -/
def Multi_Interval.mergeFuel : Nat → List Interval → List Interval
  | 0, l => l
  | fuel + 1, l =>
    match Multi_Interval.findMergePair l with
    | some (a, b) =>
      Multi_Interval.mergeFuel fuel (((l.erase a).erase b) ++ [a.hull b])
    | none => l

/-- The `Multi_Interval.merge_touching_and_intersecting`. -/
def Multi_Interval.merge_touching_and_intersecting (l : List Interval) : List Interval :=
  Multi_Interval.mergeFuel l.length l

/-- The `Multi_Interval.start` property (`Interval.py` lines 253-261): `None` on
an empty container, otherwise the running `min` of all member starts seeded
with the first member's start. -/
def Multi_Interval.start : List Interval → Option ℚ
  | [] => none
  | h :: t => some ((h :: t).foldl (fun m i => min m i.start) h.start)

/-- The `Multi_Interval.end` property (`Interval.py` lines 263-271). -/
def Multi_Interval.end? : List Interval → Option ℚ
  | [] => none
  | h :: t => some ((h :: t).foldl (fun m i => max m i.«end») h.«end»)

/-- The `Multi_Interval.is_valid` property (`Interval.py` lines 273-281): `None`
on an empty container, otherwise whether every member is individually valid
(the Python loop returns `False` at the first invalid member). -/
def Multi_Interval.is_valid : List Interval → Option Bool
  | [] => none
  | l => some (l.all Interval.is_valid)

/-- The `Multi_Interval.hull` (`Interval.py` lines 397-407): `None` on an empty
container, otherwise the pairwise `hull` folded over the members from the
first one. -/
def Multi_Interval.hull : List Interval → Option Interval
  | [] => none
  | h :: t => some (t.foldl Interval.hull h)

end Legacy

/-! ## Order facts about bounds -/

theorem Val.blt_irrefl (a : Val) : Val.blt a a = false := by
  cases a <;> simp [Val.blt]

theorem Val.blt_asymm {a b : Val} (h : Val.blt a b = true) : Val.blt b a = false := by
  cases a <;> cases b <;> simp_all [Val.blt]
  linarith

theorem iBound.blt_iff (a b : iBound) : iBound.blt a b = true ↔
    (Val.blt a.value b.value = true
      ∨ (a.value = b.value ∧ a.side = Side.right ∧ b.side = Side.left)) := by
  simp [iBound.blt, iBound.part_of_right, iBound.part_of_left, Bool.or_eq_true,
    Bool.and_eq_true, decide_eq_true_eq, and_assoc]

theorem iBound.blt_asym {a b : iBound} (h : iBound.blt a b = true) :
    iBound.blt b a = false := by
  rw [Bool.eq_false_iff]
  intro hba
  rw [iBound.blt_iff] at h hba
  rcases h with h | ⟨hv, _, hbl⟩
  · rcases hba with hba | ⟨hv, _, _⟩
    · rw [Val.blt_asymm h] at hba
      cases hba
    · rw [hv] at h
      rw [Val.blt_irrefl] at h
      cases h
  · rcases hba with hba | ⟨_, hbs, _⟩
    · rw [hv] at hba
      rw [Val.blt_irrefl] at hba
      cases hba
    · rw [hbl] at hbs
      cases hbs

theorem iBound.ble_antisymm {a b : iBound} (hab : iBound.ble a b = true)
    (hba : iBound.ble b a = true) : a = b := by
  simp only [iBound.ble, Bool.or_eq_true, decide_eq_true_eq] at hab hba
  rcases hab with hab | hab
  · rcases hba with hba | hba
    · rw [iBound.blt_asym hab] at hba
      cases hba
    · exact hba.symm
  · exact hab

theorem qisclose_refl (v : ℚ) : qisclose v v = true := by
  simp only [qisclose, relTol, sub_self, abs_zero, max_self, decide_eq_true_eq]
  positivity

/-! ## Claim theorems: construction (C5) and concrete subtraction (C6) -/

/-- C5: `iInterval` construction fails exactly when the invariants are
violated — reversed bound values fail, distinct-but-`isclose` values fail,
and equal values fail unless the lower bound is `PART_OF_RIGHT` and the upper
`PART_OF_LEFT`; `iInterval.open(3,3)` fails while `iInterval.degenerate(3)`
constructs and has zero length. -/
theorem iInterval_construction_invariants :
    (∀ l u : iBound, iInterval.mk? l u = none ↔
        (Val.blt u.value l.value = true
          ∨ (l.value ≠ u.value ∧ Val.isclose l.value u.value = true)
          ∨ (l.value = u.value ∧ ¬(l.side = Side.right ∧ u.side = Side.left))))
    ∧ iInterval.open? 3 3 = none
    ∧ (∃ d, iInterval.degenerate? 3 = some d ∧ d.length = Val.fin 0) := by
  refine ⟨fun l u => ?_, ?_, ?_⟩
  · unfold iInterval.mk?
    split_ifs with h1 h2 h3 h4
    · simp only [iBound.part_of_right, iBound.part_of_left, Bool.and_eq_true,
        decide_eq_true_eq] at h2
      simp only [reduceCtorEq, false_iff]
      rintro (hc | ⟨hne, _⟩ | ⟨_, hns⟩)
      · rw [h1, Val.blt_irrefl] at hc
        cases hc
      · exact hne h1
      · exact hns h2
    · simp only [iBound.part_of_right, iBound.part_of_left, Bool.and_eq_true,
        decide_eq_true_eq] at h2
      simp only [true_iff]
      exact Or.inr (Or.inr ⟨h1, h2⟩)
    · simp only [true_iff]
      exact Or.inr (Or.inl ⟨h1, h3⟩)
    · simp only [true_iff]
      exact Or.inl h4
    · simp only [reduceCtorEq, false_iff]
      rintro (hc | ⟨_, hcl⟩ | ⟨hv, _⟩)
      · exact h4 hc
      · exact h3 hcl
      · exact h1 hv
  · norm_num [iInterval.open?, iInterval.mk?, iBound.part_of_right, iBound.part_of_left]
    intro h
    cases h
  · refine ⟨⟨⟨Val.fin 3, Side.right⟩, ⟨Val.fin 3, Side.left⟩⟩, ?_, ?_⟩
    · norm_num [iInterval.degenerate?, iInterval.mk?, iBound.part_of_right,
        iBound.part_of_left]
    · show Val.sub (Val.fin 3) (Val.fin 3) = Val.fin 0
      norm_num [Val.sub]

/-- C6: `closed(0,5).subtract(closed(5,10))` succeeds and produces the single
member `closed_open(0,5)` — the shared boundary point 5 is removed without an
error. -/
theorem iInterval_subtract_shared_boundary :
    iInterval.closed? 0 5 = some ⟨⟨Val.fin 0, Side.right⟩, ⟨Val.fin 5, Side.left⟩⟩
    ∧ iInterval.closed? 5 10 = some ⟨⟨Val.fin 5, Side.right⟩, ⟨Val.fin 10, Side.left⟩⟩
    ∧ iInterval.subtract ⟨⟨Val.fin 0, Side.right⟩, ⟨Val.fin 5, Side.left⟩⟩
        [⟨⟨Val.fin 5, Side.right⟩, ⟨Val.fin 10, Side.left⟩⟩] =
      some [⟨⟨Val.fin 0, Side.right⟩, ⟨Val.fin 5, Side.right⟩⟩]
    ∧ iInterval.closed_open? 0 5 =
      some ⟨⟨Val.fin 0, Side.right⟩, ⟨Val.fin 5, Side.right⟩⟩ := by
  refine ⟨?_, ?_, ?_, ?_⟩
  · norm_num [iInterval.closed?, iInterval.mk?, Val.isclose, qisclose, relTol, Val.blt,
      iBound.part_of_right, iBound.part_of_left]
  · norm_num [iInterval.closed?, iInterval.mk?, Val.isclose, qisclose, relTol, Val.blt,
      iBound.part_of_right, iBound.part_of_left]
  · norm_num [iInterval.subtract, iInterval.subtractFold, iInterval.subtractMany,
      iInterval.subtract1, ops.contains_lower_bound_atomic, ops.contains_upper_bound_atomic,
      iInterval.mk?, iBound.ble, iBound.blt, Val.blt, Val.isclose, qisclose, relTol,
      iBound.part_of_right, iBound.part_of_left]
  · norm_num [iInterval.closed_open?, iInterval.mk?, Val.isclose, qisclose, relTol, Val.blt,
      iBound.part_of_right, iBound.part_of_left]

/-! ## Claim theorems: subtraction producing two pieces (C2) -/

/-- C2 counterexample: the claim fails as stated — here `self` contains both
of `other`'s bounds and both are distinct from `self`'s own bounds, yet
`subtract` raises (returns `none`) instead of yielding two pieces, because
the first piece `[10000000000, 10000000001)` is infinitesimal (its distinct
bound values are within `isclose` tolerance) and its construction throws. -/
theorem iInterval_subtract_infinitesimal_piece_error :
    ops.contains_lower_bound_atomic
        ⟨⟨Val.fin 10000000000, Side.right⟩, ⟨Val.fin 30000000000, Side.left⟩⟩
        ⟨Val.fin 10000000001, Side.right⟩ = true
    ∧ ops.contains_upper_bound_atomic
        ⟨⟨Val.fin 10000000000, Side.right⟩, ⟨Val.fin 30000000000, Side.left⟩⟩
        ⟨Val.fin 20000000000, Side.left⟩ = true
    ∧ (⟨Val.fin 10000000001, Side.right⟩ : iBound) ≠ ⟨Val.fin 10000000000, Side.right⟩
    ∧ (⟨Val.fin 20000000000, Side.left⟩ : iBound) ≠ ⟨Val.fin 30000000000, Side.left⟩
    ∧ iInterval.closed? 10000000000 30000000000 =
        some ⟨⟨Val.fin 10000000000, Side.right⟩, ⟨Val.fin 30000000000, Side.left⟩⟩
    ∧ iInterval.closed? 10000000001 20000000000 =
        some ⟨⟨Val.fin 10000000001, Side.right⟩, ⟨Val.fin 20000000000, Side.left⟩⟩
    ∧ iInterval.subtract
        ⟨⟨Val.fin 10000000000, Side.right⟩, ⟨Val.fin 30000000000, Side.left⟩⟩
        [⟨⟨Val.fin 10000000001, Side.right⟩, ⟨Val.fin 20000000000, Side.left⟩⟩] = none := by
  refine ⟨?_, ?_, by simp, by simp, ?_, ?_, ?_⟩ <;>
    norm_num [iInterval.subtract, iInterval.subtractFold, iInterval.subtractMany,
      iInterval.subtract1, ops.contains_lower_bound_atomic, ops.contains_upper_bound_atomic,
      iInterval.closed?, iInterval.mk?, iBound.ble, iBound.blt, Val.blt, Val.isclose,
      qisclose, relTol, iBound.part_of_right, iBound.part_of_left]

/-- C2 (amended): `closed(0,10).subtract(closed(3,5))` returns exactly the
two members `closed_open(0,3)` and `open_closed(5,10)`; in general, when
`self` contains both of `other`'s bounds, both are distinct from `self`'s own
bounds, and the two remaining pieces are constructible (not infinitesimal and
not reversed), subtraction yields exactly the pieces
`iInterval(self.lower, other.lower)` and `iInterval(other.upper, self.upper)`. -/
theorem iInterval_subtract_two_pieces :
    (iInterval.closed? 0 10 = some ⟨⟨Val.fin 0, Side.right⟩, ⟨Val.fin 10, Side.left⟩⟩
      ∧ iInterval.closed? 3 5 = some ⟨⟨Val.fin 3, Side.right⟩, ⟨Val.fin 5, Side.left⟩⟩
      ∧ iInterval.closed_open? 0 3 =
          some ⟨⟨Val.fin 0, Side.right⟩, ⟨Val.fin 3, Side.right⟩⟩
      ∧ iInterval.open_closed? 5 10 =
          some ⟨⟨Val.fin 5, Side.left⟩, ⟨Val.fin 10, Side.left⟩⟩
      ∧ iInterval.subtract ⟨⟨Val.fin 0, Side.right⟩, ⟨Val.fin 10, Side.left⟩⟩
          [⟨⟨Val.fin 3, Side.right⟩, ⟨Val.fin 5, Side.left⟩⟩] =
        some [⟨⟨Val.fin 0, Side.right⟩, ⟨Val.fin 3, Side.right⟩⟩,
              ⟨⟨Val.fin 5, Side.left⟩, ⟨Val.fin 10, Side.left⟩⟩])
    ∧ ∀ (s o p1 p2 : iInterval),
        ops.contains_lower_bound_atomic s o.lower_bound = true →
        ops.contains_upper_bound_atomic s o.upper_bound = true →
        o.lower_bound ≠ s.lower_bound →
        o.upper_bound ≠ s.upper_bound →
        iInterval.mk? s.lower_bound o.lower_bound = some p1 →
        iInterval.mk? o.upper_bound s.upper_bound = some p2 →
        iInterval.subtract s [o] = some [p1, p2] := by
  constructor
  · refine ⟨?_, ?_, ?_, ?_, ?_⟩ <;>
      norm_num [iInterval.subtract, iInterval.subtractFold, iInterval.subtractMany,
        iInterval.subtract1, ops.contains_lower_bound_atomic,
        ops.contains_upper_bound_atomic, iInterval.closed?, iInterval.closed_open?,
        iInterval.open_closed?, iInterval.mk?, iBound.ble, iBound.blt, Val.blt,
        Val.isclose, qisclose, relTol, iBound.part_of_right, iBound.part_of_left]
  · intro s o p1 p2 h1 h2 h3 h4 h5 h6
    have hcu : ops.contains_upper_bound_atomic o s.upper_bound = false := by
      rw [Bool.eq_false_iff]
      intro hcu
      simp only [ops.contains_upper_bound_atomic, Bool.and_eq_true] at hcu h2
      exact h4 (iBound.ble_antisymm h2.2 hcu.2)
    simp only [iInterval.subtract, iInterval.subtractFold, iInterval.subtractMany,
      iInterval.subtract1, hcu, Bool.and_false, Bool.false_eq_true, if_false, h1, h2,
      Bool.and_self, if_true, if_neg (Ne.symm h3), if_neg h4, h5, h6]
    simp

/-- C2 witness: the amended two-piece theorem applied at
`closed(0,10).subtract(closed(3,5))`. -/
theorem iInterval_subtract_two_pieces_witness :
    iInterval.subtract ⟨⟨Val.fin 0, Side.right⟩, ⟨Val.fin 10, Side.left⟩⟩
        [⟨⟨Val.fin 3, Side.right⟩, ⟨Val.fin 5, Side.left⟩⟩] =
      some [⟨⟨Val.fin 0, Side.right⟩, ⟨Val.fin 3, Side.right⟩⟩,
            ⟨⟨Val.fin 5, Side.left⟩, ⟨Val.fin 10, Side.left⟩⟩] :=
  iInterval_subtract_two_pieces.2 _ _ _ _
    (by norm_num [ops.contains_lower_bound_atomic, iBound.ble, iBound.blt, Val.blt,
      iBound.part_of_right, iBound.part_of_left])
    (by norm_num [ops.contains_upper_bound_atomic, iBound.ble, iBound.blt, Val.blt,
      iBound.part_of_right, iBound.part_of_left])
    (by simp)
    (by simp)
    (by norm_num [iInterval.mk?, Val.isclose, qisclose, relTol, Val.blt,
      iBound.part_of_right, iBound.part_of_left])
    (by norm_num [iInterval.mk?, Val.isclose, qisclose, relTol, Val.blt,
      iBound.part_of_right, iBound.part_of_left])

/-! ## Claim theorems: hull (C1) -/

/-- C1: the implemented `hull` does NOT return the maximum of the upper
bounds — for `closed(0,10).hull([closed(2,20)])` it keeps upper bound 10
although the member's upper bound is 20 (the code compares the member's
lower bound against the running upper bound before updating it), and it is
not order-independent: `closed(2,20).hull([closed(0,10)])` gives the true
hull `closed(0,20)`.  The min/max hull described by the claim is
`iInterval.hullSpec`, which differs. -/
theorem iInterval_hull_ignores_member_upper_bound :
    iInterval.closed? 0 10 = some ⟨⟨Val.fin 0, Side.right⟩, ⟨Val.fin 10, Side.left⟩⟩
    ∧ iInterval.closed? 2 20 = some ⟨⟨Val.fin 2, Side.right⟩, ⟨Val.fin 20, Side.left⟩⟩
    ∧ iInterval.hull ⟨⟨Val.fin 0, Side.right⟩, ⟨Val.fin 10, Side.left⟩⟩
        [⟨⟨Val.fin 2, Side.right⟩, ⟨Val.fin 20, Side.left⟩⟩] =
      some ⟨⟨Val.fin 0, Side.right⟩, ⟨Val.fin 10, Side.left⟩⟩
    ∧ iInterval.hullSpec ⟨⟨Val.fin 0, Side.right⟩, ⟨Val.fin 10, Side.left⟩⟩
        [⟨⟨Val.fin 2, Side.right⟩, ⟨Val.fin 20, Side.left⟩⟩] =
      (⟨Val.fin 0, Side.right⟩, ⟨Val.fin 20, Side.left⟩)
    ∧ iInterval.hull ⟨⟨Val.fin 2, Side.right⟩, ⟨Val.fin 20, Side.left⟩⟩
        [⟨⟨Val.fin 0, Side.right⟩, ⟨Val.fin 10, Side.left⟩⟩] =
      some ⟨⟨Val.fin 0, Side.right⟩, ⟨Val.fin 20, Side.left⟩⟩
    ∧ (⟨⟨Val.fin 0, Side.right⟩, ⟨Val.fin 10, Side.left⟩⟩ : iInterval) ≠
        ⟨⟨Val.fin 0, Side.right⟩, ⟨Val.fin 20, Side.left⟩⟩ := by
  refine ⟨?_, ?_, ?_, ?_, ?_, by simp⟩ <;>
    norm_num [iInterval.hull, iInterval.hullSpec, iInterval.closed?, iInterval.mk?,
      iBound.blt, Val.blt, Val.isclose, qisclose, relTol, iBound.part_of_right,
      iBound.part_of_left]

/-! ## Claim theorems: touching (C8) -/

theorem iBound.part_of_right_beq_iff (a b : iBound) :
    (a.part_of_right == b.part_of_right) = true ↔ a.side = b.side := by
  cases ha : a.side <;> cases hb : b.side <;>
    simp [iBound.part_of_right, ha, hb]

theorem iBound.part_of_left_beq_iff (a b : iBound) :
    (a.part_of_left == b.part_of_left) = true ↔ a.side = b.side := by
  cases ha : a.side <;> cases hb : b.side <;>
    simp [iBound.part_of_left, ha, hb]

/-- C8: `touches(collection)` is true exactly when some member has an
endpoint whose value is `isclose` to the facing endpoint of `self` (the
member's upper end against `self`'s lower end, or the member's lower end
against `self`'s upper end) with matching inclusion polarity (equal sides):
one interval ends where the other begins. -/
theorem iInterval_touches_iff_adjacent_endpoint :
    ∀ (s : iInterval) (l : List iInterval),
      iInterval.touches s l = true ↔
        ∃ oi ∈ l,
          (Val.isclose s.lower_bound.value oi.upper_bound.value = true
            ∧ s.lower_bound.side = oi.upper_bound.side)
          ∨ (Val.isclose s.upper_bound.value oi.lower_bound.value = true
            ∧ s.upper_bound.side = oi.lower_bound.side) := by
  intro s l
  induction l with
  | nil => simp [iInterval.touches]
  | cons oi rest ih =>
    simp only [iInterval.touches]
    split_ifs with hA hB
    · simp only [Bool.and_eq_true] at hA
      exact iff_of_true rfl
        ⟨oi, List.mem_cons_self oi rest,
          Or.inl ⟨hA.1, (iBound.part_of_right_beq_iff _ _).mp hA.2⟩⟩
    · simp only [Bool.and_eq_true] at hB
      exact iff_of_true rfl
        ⟨oi, List.mem_cons_self oi rest,
          Or.inr ⟨hB.1, (iBound.part_of_left_beq_iff _ _).mp hB.2⟩⟩
    · rw [ih]
      constructor
      · rintro ⟨x, hx, hpx⟩
        exact ⟨x, List.mem_cons_of_mem _ hx, hpx⟩
      · rintro ⟨x, hx, hpx⟩
        rcases List.mem_cons.mp hx with rfl | hx
        · rcases hpx with ⟨hc, hs⟩ | ⟨hc, hs⟩
          · refine absurd ?_ hA
            rw [Bool.and_eq_true]
            exact ⟨hc, (iBound.part_of_right_beq_iff _ _).mpr hs⟩
          · refine absurd ?_ hB
            rw [Bool.and_eq_true]
            exact ⟨hc, (iBound.part_of_left_beq_iff _ _).mpr hs⟩
        · exact ⟨x, hx, hpx⟩

/-! ## Claim theorems: legacy shared endpoint (C10) -/

/-- C10: in the legacy type, two valid non-degenerate intervals sharing an
endpoint value exactly (`A.end == B.start`) both intersect — `intersect`
returns the zero-length interval at the shared value — and touch: touching
and intersecting are not mutually exclusive for the legacy type. -/
theorem legacy_shared_endpoint_intersects_and_touches :
    ∀ A B : Legacy.Interval, A.start < A.«end» → B.start < B.«end» →
      A.«end» = B.start →
      Legacy.Interval.intersect A B = some ⟨A.«end», A.«end»⟩
      ∧ Legacy.Interval.intersects A B = true
      ∧ Legacy.Interval.touches A B = true
      ∧ Legacy.Interval.length ⟨A.«end», A.«end»⟩ = 0 := by
  intro A B hA hB hE
  have hi : Legacy.Interval.intersect A B = some ⟨A.«end», A.«end»⟩ := by
    rw [Legacy.Interval.intersect]
    rw [if_neg (by rw [hE]; exact lt_irrefl _)]
    rw [if_neg (by push_neg; exact le_of_lt (lt_trans (hE ▸ hA) hB))]
    rw [if_pos (by rw [← hE]; exact le_of_lt hA)]
    rw [if_pos (by rw [hE]; exact hB)]
    rw [← hE]
  refine ⟨hi, ?_, ?_, ?_⟩
  · rw [Legacy.Interval.intersects, hi]
    rfl
  · rw [Legacy.Interval.touches]
    have : qisclose A.«end» B.start = true := by
      rw [← hE]
      exact qisclose_refl _
    simp [this, hE]
    exact Or.inr (qisclose_refl _)
  · show A.«end» - A.«end» = 0
    exact sub_self _

/-- C10 witness: the theorem applied to `Interval(0,1)` and `Interval(1,2)`. -/
theorem legacy_shared_endpoint_witness :
    Legacy.Interval.intersect ⟨0, 1⟩ ⟨1, 2⟩ = some ⟨1, 1⟩
    ∧ Legacy.Interval.intersects ⟨0, 1⟩ ⟨1, 2⟩ = true
    ∧ Legacy.Interval.touches ⟨0, 1⟩ ⟨1, 2⟩ = true
    ∧ Legacy.Interval.length ⟨1, 1⟩ = 0 :=
  legacy_shared_endpoint_intersects_and_touches ⟨0, 1⟩ ⟨1, 2⟩
    (by norm_num) (by norm_num) rfl

/-! ## Claim theorems: add_merge (C3) -/

/-- C3: `add_merge` does not fold members that only intersect or touch after
the candidate has grown — the loop tests each member against the ORIGINAL
interval.  Adding `Interval(0,10)` to `[Interval(8,20), Interval(15,30)]`
folds `(8,20)` (candidate grows to `(0,20)`) but leaves `(15,30)`, which
intersects the grown candidate yet neither intersects nor touches the
original `(0,10)`; the final state has two overlapping members. -/
theorem add_merge_tests_original_only :
    Legacy.Multi_Interval.add_merge [⟨8, 20⟩, ⟨15, 30⟩] ⟨0, 10⟩ = [⟨15, 30⟩, ⟨0, 20⟩]
    ∧ Legacy.Interval.intersects ⟨15, 30⟩ ⟨0, 10⟩ = false
    ∧ Legacy.Interval.touches ⟨15, 30⟩ ⟨0, 10⟩ = false
    ∧ Legacy.Interval.intersects ⟨15, 30⟩ ⟨0, 20⟩ = true := by
  refine ⟨?_, ?_, ?_, ?_⟩ <;>
    norm_num [Legacy.Multi_Interval.add_merge, Legacy.Multi_Interval.add_merge_loop,
      Legacy.Interval.intersects, Legacy.Interval.intersect, Legacy.Interval.touches,
      Legacy.Interval.hull, qisclose, relTol, List.find?, List.erase]

/-! ## Claim theorems: aggregate accessors (C9) -/

theorem foldl_min_start_spec (l : List Legacy.Interval) (a : ℚ) :
    l.foldl (fun m i => min m i.start) a ≤ a
    ∧ (∀ i ∈ l, l.foldl (fun m i => min m i.start) a ≤ i.start)
    ∧ (l.foldl (fun m i => min m i.start) a = a
        ∨ ∃ i ∈ l, l.foldl (fun m i => min m i.start) a = i.start) := by
  induction l generalizing a with
  | nil => simp
  | cons hd tl ih =>
    simp only [List.foldl_cons]
    obtain ⟨ih1, ih2, ih3⟩ := ih (min a hd.start)
    refine ⟨le_trans ih1 (min_le_left _ _), ?_, ?_⟩
    · intro i hi
      rcases List.mem_cons.mp hi with rfl | hi
      · exact le_trans ih1 (min_le_right _ _)
      · exact ih2 i hi
    · rcases ih3 with h | ⟨i, hi, h⟩
      · rcases min_choice a hd.start with hm | hm
        · exact Or.inl (h.trans hm)
        · exact Or.inr ⟨hd, List.mem_cons_self hd tl, h.trans hm⟩
      · exact Or.inr ⟨i, List.mem_cons_of_mem _ hi, h⟩

theorem foldl_max_end_spec (l : List Legacy.Interval) (a : ℚ) :
    a ≤ l.foldl (fun m i => max m i.«end») a
    ∧ (∀ i ∈ l, i.«end» ≤ l.foldl (fun m i => max m i.«end») a)
    ∧ (l.foldl (fun m i => max m i.«end») a = a
        ∨ ∃ i ∈ l, l.foldl (fun m i => max m i.«end») a = i.«end») := by
  induction l generalizing a with
  | nil => simp
  | cons hd tl ih =>
    simp only [List.foldl_cons]
    obtain ⟨ih1, ih2, ih3⟩ := ih (max a hd.«end»)
    refine ⟨le_trans (le_max_left _ _) ih1, ?_, ?_⟩
    · intro i hi
      rcases List.mem_cons.mp hi with rfl | hi
      · exact le_trans (le_max_right _ _) ih1
      · exact ih2 i hi
    · rcases ih3 with h | ⟨i, hi, h⟩
      · rcases max_choice a hd.«end» with hm | hm
        · exact Or.inl (h.trans hm)
        · exact Or.inr ⟨hd, List.mem_cons_self hd tl, h.trans hm⟩
      · exact Or.inr ⟨i, List.mem_cons_of_mem _ hi, h⟩

/-- C9: on an empty legacy `Multi_Interval` the accessors `start`, `end`,
`is_valid` and the `hull()` operation all report `None`; on a non-empty one,
`start` is the minimum of the members' start values, `end` the maximum of
the members' end values, and `is_valid` is `True` iff every member is
individually valid. -/
theorem multi_interval_aggregates :
    Legacy.Multi_Interval.start [] = none
    ∧ Legacy.Multi_Interval.end? [] = none
    ∧ Legacy.Multi_Interval.is_valid [] = none
    ∧ Legacy.Multi_Interval.hull [] = none
    ∧ ∀ (l : List Legacy.Interval), l ≠ [] →
        (∃ v, Legacy.Multi_Interval.start l = some v
          ∧ (∃ i ∈ l, v = i.start) ∧ ∀ i ∈ l, v ≤ i.start)
        ∧ (∃ v, Legacy.Multi_Interval.end? l = some v
          ∧ (∃ i ∈ l, v = i.«end») ∧ ∀ i ∈ l, i.«end» ≤ v)
        ∧ (Legacy.Multi_Interval.is_valid l = some true ↔
            ∀ i ∈ l, i.start ≤ i.«end») := by
  refine ⟨rfl, rfl, rfl, rfl, ?_⟩
  intro l hl
  match l with
  | [] => exact absurd rfl hl
  | h :: t =>
    refine ⟨⟨_, rfl, ?_, ?_⟩, ⟨_, rfl, ?_, ?_⟩, ?_⟩
    · rcases (foldl_min_start_spec (h :: t) h.start).2.2 with hv | ⟨i, hi, hv⟩
      · exact ⟨h, List.mem_cons_self h t, hv⟩
      · exact ⟨i, hi, hv⟩
    · exact (foldl_min_start_spec (h :: t) h.start).2.1
    · rcases (foldl_max_end_spec (h :: t) h.«end»).2.2 with hv | ⟨i, hi, hv⟩
      · exact ⟨h, List.mem_cons_self h t, hv⟩
      · exact ⟨i, hi, hv⟩
    · exact (foldl_max_end_spec (h :: t) h.«end»).2.1
    · show some ((h :: t).all Legacy.Interval.is_valid) = some true ↔ _
      simp [Legacy.Interval.is_valid]

/-- C9 witness: the aggregate characterization applied to the singleton
container `[Interval(0,1)]`. -/
theorem multi_interval_aggregates_witness :
    (∃ v, Legacy.Multi_Interval.start [(⟨0, 1⟩ : Legacy.Interval)] = some v
      ∧ (∃ i ∈ [(⟨0, 1⟩ : Legacy.Interval)], v = i.start)
      ∧ ∀ i ∈ [(⟨0, 1⟩ : Legacy.Interval)], v ≤ i.start)
    ∧ (∃ v, Legacy.Multi_Interval.end? [(⟨0, 1⟩ : Legacy.Interval)] = some v
      ∧ (∃ i ∈ [(⟨0, 1⟩ : Legacy.Interval)], v = i.«end»)
      ∧ ∀ i ∈ [(⟨0, 1⟩ : Legacy.Interval)], i.«end» ≤ v)
    ∧ (Legacy.Multi_Interval.is_valid [(⟨0, 1⟩ : Legacy.Interval)] = some true ↔
        ∀ i ∈ [(⟨0, 1⟩ : Legacy.Interval)], i.start ≤ i.«end») :=
  multi_interval_aggregates.2.2.2.2 [⟨0, 1⟩] (by simp)

/-! ## Claim theorems: add_hard (C4) -/

theorem Legacy.Interval.intersect_isSome_false {s o : Legacy.Interval}
    (h : (s.intersect o).isSome = false) : s.«end» < o.start ∨ o.«end» < s.start := by
  rw [Legacy.Interval.intersect] at h
  split_ifs at h with h1 h2 h3 h4 h5 h6
  · exact Or.inl h1
  · exact Or.inr h2
  · simp at h
  · simp at h
  · simp at h
  · simp at h
  · exact Or.inr (not_le.mp h5)

theorem Legacy.Multi_Interval.subtract_step_preserve {mem x : Legacy.Interval}
    (h : mem.«end» ≤ x.start ∨ x.«end» ≤ mem.start) :
    (if (mem.intersect x).isSome then mem.subtractPieces x else [mem]) = [mem] := by
  by_cases hi : (mem.intersect x).isSome
  · rw [if_pos hi]
    rcases h with h | h
    · rw [Legacy.Interval.subtractPieces, if_pos h]
    · rw [Legacy.Interval.subtractPieces]
      by_cases h1 : mem.«end» ≤ x.start
      · rw [if_pos h1]
      · rw [if_neg h1, if_pos h]
  · rw [if_neg hi]

theorem Legacy.Multi_Interval.subtract_mem_bound (l : List Legacy.Interval)
    (x : Legacy.Interval) :
    ∀ mem ∈ Legacy.Multi_Interval.subtract l x,
      mem.«end» ≤ x.start ∨ x.«end» ≤ mem.start := by
  induction l with
  | nil => simp [Legacy.Multi_Interval.subtract]
  | cons hd tl ih =>
    intro mem hmem
    rw [Legacy.Multi_Interval.subtract] at hmem
    rcases List.mem_append.mp hmem with hmem | hmem
    · by_cases hi : (hd.intersect x).isSome
      · rw [if_pos hi, Legacy.Interval.subtractPieces] at hmem
        split_ifs at hmem with h1 h2 h3 h4 h5 h6
        · rw [List.mem_singleton.mp hmem]
          exact Or.inl h1
        · rw [List.mem_singleton.mp hmem]
          exact Or.inr h2
        · rw [List.mem_singleton.mp hmem]
          exact Or.inl le_rfl
        · rcases List.mem_cons.mp hmem with rfl | hmem
          · exact Or.inl le_rfl
          · rw [List.mem_singleton.mp hmem]
            exact Or.inr le_rfl
        · cases hmem
        · rw [List.mem_singleton.mp hmem]
          exact Or.inr le_rfl
        · cases hmem
      · rw [if_neg hi] at hmem
        rw [List.mem_singleton.mp hmem]
        have hi' : (hd.intersect x).isSome = false := by simpa using hi
        rcases Legacy.Interval.intersect_isSome_false hi' with h | h
        · exact Or.inl (le_of_lt h)
        · exact Or.inr (le_of_lt h)
    · exact ih mem hmem

theorem Legacy.Multi_Interval.subtract_of_bounds {l : List Legacy.Interval}
    {x : Legacy.Interval}
    (h : ∀ mem ∈ l, mem.«end» ≤ x.start ∨ x.«end» ≤ mem.start) :
    Legacy.Multi_Interval.subtract l x = l := by
  induction l with
  | nil => rfl
  | cons hd tl ih =>
    rw [Legacy.Multi_Interval.subtract,
      Legacy.Multi_Interval.subtract_step_preserve (h hd (List.mem_cons_self hd tl)),
      ih (fun mem hm => h mem (List.mem_cons_of_mem _ hm))]
    rfl

theorem Legacy.Multi_Interval.subtract_append (l1 l2 : List Legacy.Interval)
    (x : Legacy.Interval) :
    Legacy.Multi_Interval.subtract (l1 ++ l2) x =
      Legacy.Multi_Interval.subtract l1 x ++ Legacy.Multi_Interval.subtract l2 x := by
  induction l1 with
  | nil => rfl
  | cons hd tl ih =>
    rw [List.cons_append, Legacy.Multi_Interval.subtract, ih,
      Legacy.Multi_Interval.subtract, List.append_assoc]

theorem Legacy.Multi_Interval.subtract_self_singleton {x : Legacy.Interval}
    (h : x.start < x.«end») :
    Legacy.Multi_Interval.subtract [x] x =
      [⟨x.start, x.start⟩, ⟨x.«end», x.«end»⟩] := by
  have hi : (x.intersect x).isSome = true := by
    rw [Legacy.Interval.intersect,
      if_neg (not_lt.mpr (le_of_lt h)), if_neg (not_lt.mpr (le_of_lt h)),
      if_pos le_rfl, if_neg (lt_irrefl _)]
    rfl
  rw [Legacy.Multi_Interval.subtract, if_pos hi, Legacy.Interval.subtractPieces,
    if_neg (not_le.mpr h), if_neg (not_le.mpr h), if_pos le_rfl,
    if_neg (lt_irrefl _), Legacy.Multi_Interval.subtract]
  rfl

/-- C4 counterexample: `add_hard` is not idempotent — re-adding `Interval(0,1)`
to the container it was just added to re-subtracts it from its own copy,
leaving the degenerate artifacts `Interval(0,0)` and `Interval(1,1)` behind. -/
theorem add_hard_not_idempotent :
    Legacy.Multi_Interval.add_hard (Legacy.Multi_Interval.add_hard [] ⟨0, 1⟩) ⟨0, 1⟩ =
      [⟨0, 0⟩, ⟨1, 1⟩, ⟨0, 1⟩]
    ∧ Legacy.Multi_Interval.add_hard (Legacy.Multi_Interval.add_hard [] ⟨0, 1⟩) ⟨0, 1⟩ ≠
      Legacy.Multi_Interval.add_hard [] ⟨0, 1⟩ := by
  constructor <;>
    norm_num [Legacy.Multi_Interval.add_hard, Legacy.Multi_Interval.subtract,
      Legacy.Interval.intersect, Legacy.Interval.subtractPieces]

/-- C4 (amended): `add_hard` is not a no-op the second time.  For any
container and any interval `x` with `start < end`, the first `add_hard`
leaves `subtract(members, x) ++ [x]`; the second leaves every truncated
member unchanged but replaces the trailing `x` by the two degenerate
intervals `Interval(x.start, x.start)`, `Interval(x.end, x.end)` followed by
`x` again. -/
theorem add_hard_twice_appends_degenerates :
    ∀ (l : List Legacy.Interval) (x : Legacy.Interval), x.start < x.«end» →
      Legacy.Multi_Interval.add_hard l x = Legacy.Multi_Interval.subtract l x ++ [x]
      ∧ Legacy.Multi_Interval.add_hard (Legacy.Multi_Interval.add_hard l x) x =
          Legacy.Multi_Interval.subtract l x ++
            [⟨x.start, x.start⟩, ⟨x.«end», x.«end»⟩, x] := by
  intro l x hx
  refine ⟨rfl, ?_⟩
  show Legacy.Multi_Interval.subtract (Legacy.Multi_Interval.subtract l x ++ [x]) x ++ [x] = _
  rw [Legacy.Multi_Interval.subtract_append,
    Legacy.Multi_Interval.subtract_of_bounds (Legacy.Multi_Interval.subtract_mem_bound l x),
    Legacy.Multi_Interval.subtract_self_singleton hx]
  simp

/-- C4 witness: the amended theorem applied to the container `[Interval(5,7)]`
and `Interval(0,1)`. -/
theorem add_hard_twice_appends_degenerates_witness :
    ((0 : ℚ) < 1)
    ∧ Legacy.Multi_Interval.add_hard
        (Legacy.Multi_Interval.add_hard [⟨5, 7⟩] ⟨0, 1⟩) ⟨0, 1⟩ =
      Legacy.Multi_Interval.subtract [⟨5, 7⟩] ⟨0, 1⟩ ++ [⟨0, 0⟩, ⟨1, 1⟩, ⟨0, 1⟩] :=
  ⟨by norm_num, (add_hard_twice_appends_degenerates [⟨5, 7⟩] ⟨0, 1⟩ (by norm_num)).2⟩

/-! ## Claim theorems: merge_touching_and_intersecting (C7) -/

theorem Legacy.Multi_Interval.findMergePair_mem :
    ∀ {l : List Legacy.Interval} {a b : Legacy.Interval},
      Legacy.Multi_Interval.findMergePair l = some (a, b) → a ∈ l ∧ b ∈ l.erase a := by
  intro l
  induction l with
  | nil =>
    intro a b h
    cases h
  | cons hd tl ih =>
    intro a b h
    rw [Legacy.Multi_Interval.findMergePair] at h
    cases hf : tl.find? (fun b => hd.intersects b || hd.touches b) with
    | some b0 =>
      rw [hf] at h
      simp only [Option.some.injEq, Prod.mk.injEq] at h
      obtain ⟨rfl, rfl⟩ := h
      refine ⟨List.mem_cons_self _ _, ?_⟩
      rw [List.erase_cons_head]
      exact List.mem_of_find?_eq_some hf
    | none =>
      rw [hf] at h
      obtain ⟨ha, hb⟩ := ih h
      refine ⟨List.mem_cons_of_mem _ ha, ?_⟩
      by_cases hhd : hd = a
      · subst hhd
        rw [List.erase_cons_head]
        exact List.mem_of_mem_erase hb
      · rw [List.erase_cons]
        simp only [beq_iff_eq, hhd, if_false]
        exact List.mem_cons_of_mem _ hb

theorem Legacy.Multi_Interval.findMergePair_mergeFuel :
    ∀ (fuel : Nat) (l : List Legacy.Interval), l.length ≤ fuel →
      Legacy.Multi_Interval.findMergePair (Legacy.Multi_Interval.mergeFuel fuel l) =
        none := by
  intro fuel
  induction fuel with
  | zero =>
    intro l hl
    rw [List.eq_nil_of_length_eq_zero (Nat.le_zero.mp hl)]
    rfl
  | succ n ih =>
    intro l hl
    cases h : Legacy.Multi_Interval.findMergePair l with
    | some p =>
      obtain ⟨a, b⟩ := p
      have hstep : Legacy.Multi_Interval.mergeFuel (n + 1) l =
          Legacy.Multi_Interval.mergeFuel n (((l.erase a).erase b) ++ [a.hull b]) := by
        simp only [Legacy.Multi_Interval.mergeFuel, h]
      rw [hstep]
      apply ih
      obtain ⟨ha, hb⟩ := Legacy.Multi_Interval.findMergePair_mem h
      have h1 := List.length_erase_of_mem ha
      have h2 := List.length_erase_of_mem hb
      have h3 := List.length_pos_of_mem hb
      simp only [List.length_append, List.length_singleton]
      omega
    | none =>
      have hstep : Legacy.Multi_Interval.mergeFuel (n + 1) l = l := by
        simp only [Legacy.Multi_Interval.mergeFuel, h]
      rw [hstep]
      exact h

theorem Legacy.Multi_Interval.mergeFuel_of_none {l : List Legacy.Interval}
    (h : Legacy.Multi_Interval.findMergePair l = none) :
    ∀ fuel, Legacy.Multi_Interval.mergeFuel fuel l = l := by
  intro fuel
  cases fuel with
  | zero => rfl
  | succ n => simp only [Legacy.Multi_Interval.mergeFuel, h]

theorem Legacy.Multi_Interval.findMergePair_eq_none_iff (l : List Legacy.Interval) :
    Legacy.Multi_Interval.findMergePair l = none ↔
      l.Pairwise (fun a b => (a.intersects b || a.touches b) = false) := by
  induction l with
  | nil => simp [Legacy.Multi_Interval.findMergePair]
  | cons hd tl ih =>
    rw [Legacy.Multi_Interval.findMergePair]
    cases hf : tl.find? (fun b => hd.intersects b || hd.touches b) with
    | some b =>
      simp only [reduceCtorEq, false_iff]
      intro hp
      rw [List.pairwise_cons] at hp
      have := hp.1 b (List.mem_of_find?_eq_some hf)
      rw [List.find?_some hf] at this
      cases this
    | none =>
      rw [List.pairwise_cons]
      constructor
      · intro hn
        refine ⟨?_, ih.mp hn⟩
        intro b hbmem
        exact Bool.eq_false_iff.mpr (List.find?_eq_none.mp hf b hbmem)
      · rintro ⟨_, hp⟩
        exact ih.mpr hp

/-- C7: `merge_touching_and_intersecting` produces a member list in which no
two members intersect or touch, and applying it a second time immediately
afterwards returns the same member list (idempotence). -/
theorem merge_touching_and_intersecting_normalizes_idempotent :
    ∀ l : List Legacy.Interval,
      (Legacy.Multi_Interval.merge_touching_and_intersecting l).Pairwise
        (fun a b => (a.intersects b || a.touches b) = false)
      ∧ Legacy.Multi_Interval.merge_touching_and_intersecting
          (Legacy.Multi_Interval.merge_touching_and_intersecting l) =
        Legacy.Multi_Interval.merge_touching_and_intersecting l := by
  intro l
  have hnone : Legacy.Multi_Interval.findMergePair
      (Legacy.Multi_Interval.merge_touching_and_intersecting l) = none :=
    Legacy.Multi_Interval.findMergePair_mergeFuel l.length l le_rfl
  exact ⟨(Legacy.Multi_Interval.findMergePair_eq_none_iff _).mp hnone,
    Legacy.Multi_Interval.mergeFuel_of_none hnone _⟩
